import Mathlib

/-!
Verification development for the meow-ai realtime voice bridge (Go).

The definitions below are a shallow embedding of the Go source:

* internal/voice/audio.go — PCM decode, linear resampler, s16 re-encode
  (decodeSamples, linearResampler.Process, float32ToS16, float32ToS16Bytes,
  PCMProcessor.Process);
* voice/session.go — the per-user session: reader task (consume), the
  sticky first-error slot (setError / Err) and PushAudio;
* volc client (Client.Open / startConnection / startSession / SendAudio);
* the WebSocket handler (readStart / handleRealtime / pipeBackend).

Modelling conventions:

* Byte streams are lists of naturals below 256.
* Go float32/float64 arithmetic is embedded as exact arithmetic on ℚ.
  For every fact proved about the s16 encode/decode path this is
  bit-faithful: a float32 sample widened to float64 and multiplied by
  32767 needs at most 39 mantissa bits, so the Go computation is exact,
  as is int16/32768.0.  For the resampler the ℚ embedding is the exact
  real-arithmetic idealization of the float code.
* Go int(x) truncation for x ≥ 0 equals the rational floor, and the
  resampler position is never negative, so Int.floor.toNat models it.
* The Go resampler loop has no iteration bound and terminates because
  step > 0; the embedding gives the loop an explicit fuel that provably
  dominates the iteration count (see lrLoopF and the fuel chosen in
  lrProcess), keeping the recursion structural.
* Channels are modelled as bounded queues (capacity 64); a non-blocking
  send on a full queue leaves the queue unchanged (drop), a blocking
  send on a full queue suspends the step (StepOutcome.blockedOnAudio).
* The binary protocol codec (NewMessage/Marshal/Unmarshal) is not part
  of the sources; per the spec the recognized message kinds always
  construct successfully, so SendAudio is modelled as the message it
  builds (kind AudioOnlyClient, event 200, session id, raw payload).
-/

namespace MeowAI

/-- Decidable equality for Except results used by the environments below. -/
instance {ε α : Type} [DecidableEq ε] [DecidableEq α] : DecidableEq (Except ε α) := fun x y =>
  match x, y with
  | .ok a, .ok b =>
      if h : a = b then isTrue (by rw [h])
      else isFalse (by intro he; cases he; exact h rfl)
  | .error a, .error b =>
      if h : a = b then isTrue (by rw [h])
      else isFalse (by intro he; cases he; exact h rfl)
  | .ok _, .error _ => isFalse (by intro h; cases h)
  | .error _, .ok _ => isFalse (by intro h; cases h)

/-- Go math.Round: round half away from zero. -/
def goRound (q : ℚ) : ℤ :=
  if 0 ≤ q then ⌊q + 1/2⌋ else -⌊-q + 1/2⌋

/-- Go int16(binary.LittleEndian.Uint16 …): reinterpret a 16-bit word as a
signed 16-bit integer (two's complement). -/
def toS16 (u : ℕ) : ℤ :=
  if u < 32768 then (u : ℤ) else (u : ℤ) - 65536

/-- Go uint16(v) for an int16 v: two's complement reinterpretation. -/
def u16OfInt (i : ℤ) : ℕ :=
  (i % 65536).toNat

/-- Whether an Except value is a success. -/
def isOkE {ε α : Type} : Except ε α → Bool
  | .ok _ => true
  | .error _ => false

/-- Error kinds raised by the PCM pipeline (audio.go). -/
inductive AudioErr
  | unalignedF32
  | unalignedS16
  | unsupportedEncoding
  | invalidSampleRate
deriving DecidableEq, Repr

/-- The little-endian 16-bit words of a byte stream
(the indexed loop in decodeSamples, s16le case). -/
def u16leChunks : List ℕ → List ℕ
  | b0 :: b1 :: rest => (b0 + 256 * b1) :: u16leChunks rest
  | _ => []

/-- The little-endian 32-bit words of a byte stream
(the indexed loop in decodeSamples, f32le case). -/
def u32leChunks : List ℕ → List ℕ
  | b0 :: b1 :: b2 :: b3 :: rest =>
      (b0 + 256 * b1 + 65536 * b2 + 16777216 * b3) :: u32leChunks rest
  | _ => []

/-- Go math.Float32frombits: the rational value of an IEEE-754 single
precision bit pattern.  Exponent 255 (infinities, NaN) has no rational
value and is mapped to 0; no fact proved below evaluates such a pattern. -/
def f32FromBits (bits : ℕ) : ℚ :=
  let sgn : ℚ := if bits / 2 ^ 31 % 2 = 1 then -1 else 1
  let e : ℕ := bits / 2 ^ 23 % 256
  let m : ℕ := bits % 2 ^ 23
  if e = 0 then sgn * m / 2 ^ 149
  else if e = 255 then 0
  else sgn * (2 ^ 23 + m) * 2 ^ e / 2 ^ 150

/-- audio.go decodeSamples: decode a byte frame to float samples.
f32le: 4 bytes per sample, IEEE-754; s16le: 2 bytes per sample, signed,
divided by 32768.0.  Unaligned lengths and unknown encodings fail. -/
def decodeSamples (data : List ℕ) (encoding : String) : Except AudioErr (List ℚ) :=
  if encoding = "f32le" then
    if data.length % 4 ≠ 0 then .error .unalignedF32
    else .ok ((u32leChunks data).map f32FromBits)
  else if encoding = "s16le" then
    if data.length % 2 ≠ 0 then .error .unalignedS16
    else .ok ((u16leChunks data).map fun u => (toS16 u : ℚ) / 32768)
  else .error .unsupportedEncoding

/-- audio.go float32ToS16: clamp to [-1, 1], scale by 32767, round to
nearest with ties away from zero. -/
def float32ToS16 (v : ℚ) : ℤ :=
  let c : ℚ := if 1 < v then 1 else if v < -1 then -1 else v
  goRound (c * 32767)

/-- audio.go float32ToS16Bytes: encode samples as little-endian int16. -/
def float32ToS16Bytes : List ℚ → List ℕ
  | [] => []
  | s :: rest =>
      let u := u16OfInt (float32ToS16 s)
      u % 256 :: u / 256 % 256 :: float32ToS16Bytes rest

/-- audio.go linearResampler state: rates, step = src/dst, fractional read
position, and the one-sample tail carried across Process calls. -/
structure LinearResampler where
  srcRate : ℕ
  dstRate : ℕ
  step : ℚ
  pos : ℚ
  lastSample : ℚ
  hasLast : Bool
deriving DecidableEq, Repr

/-- audio.go newLinearResampler. -/
def newLinearResampler (src dst : ℕ) : LinearResampler :=
  ⟨src, dst, (src : ℚ) / dst, 0, 0, false⟩

/-- The interpolation loop of linearResampler.Process.  The Go loop runs
while int(pos)+1 ≤ lastIdx, emitting
data[idx]*(1-frac) + data[next]*frac and advancing pos by step; it
terminates because step > 0.  fuel is an explicit upper bound on the
number of iterations (the caller passes a provably sufficient amount);
the returned pair is (emitted samples, final pos). -/
def lrLoopF : ℕ → List ℚ → ℕ → ℚ → ℚ → List ℚ × ℚ
  | 0, _, _, _, pos => ([], pos)
  | fuel + 1, data, lastIdx, step, pos =>
      if ⌊pos⌋.toNat + 1 ≤ lastIdx then
        let idx := ⌊pos⌋.toNat
        let frac := pos - (idx : ℚ)
        let a := data.getD idx 0
        let b := data.getD (idx + 1) 0
        let value := a * (1 - frac) + b * frac
        let r := lrLoopF fuel data lastIdx step (pos + step)
        (value :: r.1, r.2)
      else ([], pos)

/-- audio.go linearResampler.Process.  Empty input returns nothing.  The
retained tail (if any) is prepended; a single-element window only stores
the new tail; otherwise the loop runs from the carried position, the new
position is the final position rebased by lastIdx (clamped at 0) and the
new tail is the last window sample. -/
def lrProcess (r : LinearResampler) (samples : List ℚ) : LinearResampler × List ℚ :=
  if samples = [] then (r, [])
  else
    let data := if r.hasLast then r.lastSample :: samples else samples
    let lastIdx := data.length - 1
    if lastIdx = 0 then
      ({ r with lastSample := data.getD lastIdx 0, hasLast := true }, [])
    else
      let fuel := samples.length * r.dstRate + r.dstRate + 1
      let res := lrLoopF fuel data lastIdx r.step r.pos
      let pos' := res.2 - (lastIdx : ℚ)
      ({ r with pos := if pos' < 0 then 0 else pos',
                lastSample := data.getD lastIdx 0, hasLast := true },
       res.1)

/-- A sequence of Process calls on consecutive batches, concatenating the
outputs (the state is threaded from call to call). -/
def lrProcessAll (r : LinearResampler) : List (List ℚ) → List ℚ
  | [] => []
  | b :: bs =>
      let res := lrProcess r b
      res.2 ++ lrProcessAll res.1 bs

/-- Modelled from the spec: the value linear interpolation over the sample
list s assigns to fractional position p. -/
def interpAt (s : List ℚ) (p : ℚ) : ℚ :=
  s.getD ⌊p⌋.toNat 0 * (1 - (p - (⌊p⌋.toNat : ℚ)))
    + s.getD (⌊p⌋.toNat + 1) 0 * (p - (⌊p⌋.toNat : ℚ))

/-- Modelled from the spec: how many interpolation points k*step fall
before position n-1, i.e. the least K with K*step ≥ n-1.  Points at or
beyond n-1 would need the final in-flight sample, which the resampler
retains as its tail. -/
def idealCount (step : ℚ) (n : ℕ) : ℕ :=
  ⌈((n : ℚ) - 1) / step⌉.toNat

/-- Modelled from the spec: the sample series that linear interpolation
with the given step over the whole input would produce (minus the
points that depend on the retained in-flight tail sample). -/
def idealResample (step : ℚ) (s : List ℚ) : List ℚ :=
  (List.range (idealCount step s.length)).map fun k : ℕ => interpAt s ((k : ℚ) * step)

/-- The resampler state after a stream prefix of length n ≥ 1 has been
consumed: the tail is sample n-1, and the carried fractional position is
the absolute read position (the count of emitted samples times step)
rebased by n-1.  This is the invariant shape threaded through the
batching proof. -/
def invState (src dst : ℕ) (S : List ℚ) (n : ℕ) : LinearResampler :=
  ⟨src, dst, (src : ℚ) / dst,
   ((idealCount ((src : ℚ) / dst) n : ℕ) : ℚ) * ((src : ℚ) / dst) - ((n - 1 : ℕ) : ℚ),
   S.getD (n - 1) 0, true⟩

/-- audio.go target output rate. -/
def targetSampleRate : ℤ := 16000

/-- audio.go PCMProcessor: declared input format plus the resampler
(present exactly when the declared rate differs from 16000). -/
structure PCMProcessor where
  sampleRate : ℤ
  encoding : String
  resampler : Option LinearResampler
deriving DecidableEq, Repr

/-- audio.go NewPCMProcessor: positive rate required, empty encoding
defaults to f32le, resampler built for rates other than 16000. -/
def newPCMProcessor (sampleRate : ℤ) (encoding : String) : Except AudioErr PCMProcessor :=
  if sampleRate ≤ 0 then .error .invalidSampleRate
  else
    let enc := if encoding = "" then "f32le" else encoding
    let res : Option LinearResampler :=
      if sampleRate ≠ targetSampleRate then
        some (newLinearResampler sampleRate.toNat 16000)
      else none
    .ok ⟨sampleRate, enc, res⟩

/-- audio.go PCMProcessor.Process: decode, resample when configured,
re-encode; empty sample lists short-circuit to empty output. -/
def pcmProcess (p : PCMProcessor) (frame : List ℕ) :
    Except AudioErr (PCMProcessor × List ℕ) :=
  match decodeSamples frame p.encoding with
  | .error e => .error e
  | .ok samples =>
      if samples = [] then .ok (p, [])
      else
        match p.resampler with
        | some r =>
            let res := lrProcess r samples
            let p2 : PCMProcessor := { p with resampler := some res.1 }
            if res.2 = [] then .ok (p2, [])
            else .ok (p2, float32ToS16Bytes res.2)
        | none => .ok (p, float32ToS16Bytes samples)

/-- The per-sample effect of the s16le decode/encode round trip at rate
16000: v ↦ round(v·32767/32768) with ties away from zero (stated from
the code path float32ToS16 ∘ (·/32768)). -/
def s16RoundTrip (v : ℤ) : ℤ :=
  float32ToS16 ((v : ℚ) / 32768)

/-- The byte stream obtained by applying s16RoundTrip to every 16-bit
little-endian sample of the input. -/
def s16RoundTripBytes : List ℕ → List ℕ
  | b0 :: b1 :: rest =>
      let u := u16OfInt (s16RoundTrip (toS16 (b0 + 256 * b1)))
      u % 256 :: u / 256 % 256 :: s16RoundTripBytes rest
  | _ => []

/-- Upstream frame kinds (volc message types seen by the session). -/
inductive VMsgType
  | fullClient
  | audioOnlyClient
  | fullServer
  | audioOnlyServer
  | errorMsg
  | other
deriving DecidableEq, Repr

/-- An upstream frame as the session reader sees it. -/
structure VMsg where
  typ : VMsgType
  event : ℤ
  sessionID : String
  payload : List ℕ
  errorCode : ℕ
deriving DecidableEq, Repr

/-- Session-level error values (the sticky error slot's contents). -/
inductive SErr
  | readFromDoubao
  | doubaoError (code : ℕ) (payload : List ℕ)
  | pcm (e : AudioErr)
deriving DecidableEq, Repr

/-- voice/session.go EventMsg: the record pushed on the event channel. -/
structure EventMsg where
  typ : String
  eventID : ℤ
  payload : List ℕ
deriving DecidableEq, Repr

/-- The session state visible to the reader task: the two bounded
channels (as queues), the cancellation flag and the sticky error slot. -/
structure SessState where
  audioQ : List (List ℕ)
  eventQ : List EventMsg
  cancelled : Bool
  errSlot : Option SErr
deriving DecidableEq, Repr

/-- What a single reader iteration does: continue looping, return, or
suspend on a blocking audio-channel send. -/
inductive StepOutcome
  | proceed
  | stopped
  | blockedOnAudio
deriving DecidableEq, Repr

/-- Channel capacity used by voice/session.go (both channels). -/
def chanCap : ℕ := 64

/-- A fresh session state. -/
def initSession : SessState :=
  ⟨[], [], false, none⟩

/-- voice/session.go Session.setError: nil errors are ignored; the first
non-nil error is stored and fires the cancellation; later errors leave
the slot untouched. -/
def setError (s : SessState) (e : Option SErr) : SessState :=
  match e with
  | none => s
  | some err =>
      if s.errSlot = none then
        { s with errSlot := some err, cancelled := true }
      else s

/-- voice/session.go Session.Err. -/
def sessErr (s : SessState) : Option SErr :=
  s.errSlot

/-- One iteration of voice/session.go Session.consume, given the outcome
of client.Read.  AudioOnlyServer frames block when the audio queue is
full; FullServer 152/153 end the loop; other FullServer frames are
pushed without blocking and dropped when the event queue is full;
Error frames set the sticky error; other kinds are ignored. -/
def consumeStep (s : SessState) (read : Except SErr VMsg) : SessState × StepOutcome :=
  if s.cancelled then (s, .stopped)
  else
    match read with
    | .error e => (setError s (some e), .stopped)
    | .ok msg =>
        match msg.typ with
        | .audioOnlyServer =>
            if s.audioQ.length < chanCap then
              ({ s with audioQ := s.audioQ ++ [msg.payload] }, .proceed)
            else (s, .blockedOnAudio)
        | .fullServer =>
            if msg.event = 152 ∨ msg.event = 153 then (s, .stopped)
            else if s.eventQ.length < chanCap then
              ({ s with eventQ := s.eventQ ++ [⟨"event", msg.event, msg.payload⟩] },
               .proceed)
            else (s, .proceed)
        | .errorMsg => (setError s (some (.doubaoError msg.errorCode msg.payload)), .stopped)
        | _ => (s, .proceed)

/-- An upstream client→server frame as built by the volc client.
Modelled from the spec: the codec (NewMessage/Marshal) is not among the
sources; recognized kinds always construct, so the frame is its fields. -/
structure UpMsg where
  typ : VMsgType
  event : ℤ
  sessionID : String
  payload : List ℕ
deriving DecidableEq, Repr

/-- volc Client.SendAudio: AudioOnlyClient frame, event 200 (UserQuery),
session id attached, raw payload = the pcm bytes. -/
def sendAudio (sessionID : String) (pcm : List ℕ) : UpMsg :=
  ⟨.audioOnlyClient, 200, sessionID, pcm⟩

/-- What a PushAudio call did. -/
inductive PushResult
  | stickyReturn (e : Option SErr)
  | pcmError (e : AudioErr)
  | nothingSent
  | sentUpstream (m : UpMsg)
deriving DecidableEq, Repr

/-- voice/session.go Session.PushAudio: empty frames and empty pipeline
outputs send nothing; a cancelled session returns the sticky error; a
pipeline error is returned; otherwise exactly one SendAudio happens. -/
def pushAudio (p : PCMProcessor) (cancelled : Bool) (sticky : Option SErr)
    (sessionID : String) (frame : List ℕ) : PCMProcessor × PushResult :=
  if frame = [] then (p, .nothingSent)
  else if cancelled then (p, .stickyReturn sticky)
  else
    match pcmProcess p frame with
    | .error e => (p, .pcmError e)
    | .ok (p2, pcm) =>
        if pcm = [] then (p2, .nothingSent)
        else (p2, .sentUpstream (sendAudio sessionID pcm))

/-- The environment a Client.Open run interacts with: whether the dial
succeeds, whether the two writes succeed, and the two frames read
during the handshake. -/
structure OpenEnv where
  dialOK : Bool
  write1OK : Bool
  read1 : Except Unit VMsg
  write2OK : Bool
  read2 : Except Unit VMsg
deriving DecidableEq, Repr

/-- Result of Client.Open: success, whether the upstream was dialed, and
whether the socket was closed before returning. -/
structure OpenResult where
  ok : Bool
  dialed : Bool
  closedSocket : Bool
deriving DecidableEq, Repr

/-- volc Client.Open / startConnection / startSession.  After a
successful dial, phase one expects FullServer event 50 and phase two
FullServer event 150; every post-dial failure closes the socket before
returning (conn.Close() in Open's error paths). -/
def clientOpen (alreadyOpen : Bool) (env : OpenEnv) : OpenResult :=
  if alreadyOpen then ⟨false, false, false⟩
  else if env.dialOK = false then ⟨false, true, false⟩
  else if env.write1OK = false then ⟨false, true, true⟩
  else
    match env.read1 with
    | .error _ => ⟨false, true, true⟩
    | .ok m1 =>
        if m1.typ = VMsgType.fullServer ∧ m1.event = 50 then
          if env.write2OK = false then ⟨false, true, true⟩
          else
            match env.read2 with
            | .error _ => ⟨false, true, true⟩
            | .ok m2 =>
                if m2.typ = VMsgType.fullServer ∧ m2.event = 150 then ⟨true, true, false⟩
                else ⟨false, true, true⟩
        else ⟨false, true, true⟩

/-- A handshake response is good when it is a FullServer frame with the
expected event id. -/
def goodResp (ev : ℤ) : Except Unit VMsg → Prop
  | .error _ => False
  | .ok m => m.typ = VMsgType.fullServer ∧ m.event = ev

instance (ev : ℤ) (r : Except Unit VMsg) : Decidable (goodResp ev r) := by
  unfold goodResp
  cases r <;> infer_instance

/-- WebSocket message kinds read from the browser. -/
inductive WsKind
  | textMsg
  | binaryMsg
  | otherKind
deriving DecidableEq, Repr

/-- The browser's parsed start message (server handler clientStartMessage). -/
structure StartMsg where
  typ : String
  sampleRate : ℤ
  encoding : String
deriving DecidableEq, Repr

/-- Errors of Handler.readStart. -/
inductive StartErr
  | transport
  | notText
  | badJSON
  | notStart
deriving DecidableEq, Repr

/-- Handler.readStart: one frame is read (transport result and JSON parse
result supplied by the environment); it must be a text frame whose JSON
parses with type "start"; sampleRate 0 defaults to 48000 and empty
encoding to f32le.  Note: the encoding value itself is not validated. -/
def readStart (r : Except Unit (WsKind × Option StartMsg)) : Except StartErr StartMsg :=
  match r with
  | .error _ => .error .transport
  | .ok (k, parsed) =>
      if k ≠ WsKind.textMsg then .error .notText
      else
        match parsed with
        | none => .error .badJSON
        | some m =>
            if m.typ ≠ "start" then .error .notStart
            else
              .ok { m with
                    sampleRate := if m.sampleRate = 0 then 48000 else m.sampleRate,
                    encoding := if m.encoding = "" then "f32le" else m.encoding }

/-- Externally visible actions of the handler, in program order:
browser-socket writes and upstream-side effects. -/
inductive Action
  | writeErrorFrame
  | writeReady
  | writeAudioFrame (b : List ℕ)
  | writeEventFrame (e : ℤ) (p : List ℕ)
  | dialUpstream
  | sayHello
  | closeUpstream
deriving DecidableEq, Repr

/-- voice.NewSession, as the actions it performs plus success:
a processor-construction failure returns before any upstream contact;
otherwise client.Open dials the upstream, then SayHello runs; a failed
greeting closes the client. -/
def newSessionActions (sampleRate : ℤ) (encoding : String)
    (openOK helloOK : Bool) : List Action × Bool :=
  match newPCMProcessor sampleRate encoding with
  | .error _ => ([], false)
  | .ok _ =>
      if openOK = false then ([.dialUpstream], false)
      else if helloOK = false then ([.dialUpstream, .sayHello, .closeUpstream], false)
      else ([.dialUpstream, .sayHello], true)

/-- Items arriving on the session's two outbound channels. -/
inductive BackendItem
  | audio (b : List ℕ)
  | event (e : ℤ) (p : List ℕ)
deriving DecidableEq, Repr

/-- Handler.pipeBackend: audio payloads become binary frames (empty ones
are skipped), events become JSON event frames. -/
def backendWrites : List BackendItem → List Action
  | [] => []
  | .audio b :: rest =>
      if b = [] then backendWrites rest
      else .writeAudioFrame b :: backendWrites rest
  | .event e p :: rest => .writeEventFrame e p :: backendWrites rest

/-- The environment one handleRealtime run interacts with. -/
structure HandlerEnv where
  firstRead : Except Unit (WsKind × Option StartMsg)
  openOK : Bool
  helloOK : Bool
  backendItems : List BackendItem
deriving DecidableEq, Repr

/-- Handler.handleRealtime as its action trace: a readStart failure is
answered with an error frame; a session-construction failure likewise
(after whatever NewSession did); on success the ready frame is written
and then the backend pump's writes happen. -/
def handlerTrace (env : HandlerEnv) : List Action :=
  match readStart env.firstRead with
  | .error _ => [.writeErrorFrame]
  | .ok start =>
      let s := newSessionActions start.sampleRate start.encoding env.openOK env.helloOK
      if s.2 then s.1 ++ (.writeReady :: backendWrites env.backendItems)
      else s.1 ++ [.writeErrorFrame]

/-- Which actions are writes on the browser socket. -/
def isBrowserWrite : Action → Bool
  | .writeErrorFrame => true
  | .writeReady => true
  | .writeAudioFrame _ => true
  | .writeEventFrame _ _ => true
  | .dialUpstream => false
  | .sayHello => false
  | .closeUpstream => false

/-! ### Shared helper lemmas -/

theorem u16OfInt_lt (i : ℤ) : u16OfInt i < 65536 := by
  unfold u16OfInt
  omega

theorem toS16_u16OfInt (i : ℤ) (h1 : -32768 ≤ i) (h2 : i ≤ 32767) :
    toS16 (u16OfInt i) = i := by
  simp only [toS16, u16OfInt]
  split <;> omega

theorem u16OfInt_toS16 (u : ℕ) (h : u < 65536) : u16OfInt (toS16 u) = u := by
  simp only [toS16, u16OfInt]
  split <;> omega

theorem u16leChunks_encode (samples : List ℚ) :
    u16leChunks (float32ToS16Bytes samples)
      = samples.map fun s => u16OfInt (float32ToS16 s) := by
  induction samples with
  | nil => rfl
  | cons s rest ih =>
      have hu : u16OfInt (float32ToS16 s) < 65536 := u16OfInt_lt _
      simp only [float32ToS16Bytes, u16leChunks, List.map, ih, List.cons.injEq, and_true]
      omega

theorem goRound_le (c : ℚ) (h1 : -1 ≤ c) (h2 : c ≤ 1) :
    -32767 ≤ goRound (c * 32767) ∧ goRound (c * 32767) ≤ 32767 := by
  have hx1 : (-32767 : ℚ) ≤ c * 32767 := by nlinarith
  have hx2 : c * 32767 ≤ (32767 : ℚ) := by nlinarith
  unfold goRound
  split
  · constructor
    · have : (0 : ℤ) ≤ ⌊c * 32767 + 1/2⌋ := by
        apply Int.le_floor.mpr
        push_cast
        linarith
      omega
    · have : ⌊c * 32767 + 1/2⌋ < (32768 : ℤ) := by
        apply Int.floor_lt.mpr
        push_cast
        linarith
      omega
  · rename_i hneg
    push_neg at hneg
    constructor
    · have : ⌊-(c * 32767) + 1/2⌋ < (32768 : ℤ) := by
        apply Int.floor_lt.mpr
        push_cast
        linarith
      omega
    · have : (0 : ℤ) ≤ ⌊-(c * 32767) + 1/2⌋ := by
        apply Int.le_floor.mpr
        push_cast
        linarith
      omega

theorem float32ToS16_bounds (v : ℚ) :
    -32767 ≤ float32ToS16 v ∧ float32ToS16 v ≤ 32767 := by
  unfold float32ToS16
  split
  · exact goRound_le 1 (by norm_num) (by norm_num)
  · split
    · exact goRound_le (-1) (by norm_num) (by norm_num)
    · rename_i hgt hlt
      push_neg at hgt hlt
      exact goRound_le v hlt hgt

/-! ### C10 -/

/-- C10: for every (finite, hence rational) float32 sample, the s16
encoder produces a value in [-32767, 32767]; samples at or below -1
clamp to -1 and encode to -32767; in particular neither the encoder nor
the encoded byte stream ever contains the int16 value -32768. -/
theorem claim_C10 (v : ℚ) (samples : List ℚ) :
    (-32767 ≤ float32ToS16 v ∧ float32ToS16 v ≤ 32767)
    ∧ (v ≤ -1 → float32ToS16 v = -32767)
    ∧ float32ToS16 v ≠ -32768
    ∧ ∀ u ∈ u16leChunks (float32ToS16Bytes samples), toS16 u ≠ -32768 := by
  refine ⟨float32ToS16_bounds v, ?_, ?_, ?_⟩
  · intro hv
    have hc : (¬ 1 < v) := by linarith
    unfold float32ToS16
    rw [if_neg hc]
    rcases lt_or_eq_of_le hv with hlt | heq
    · rw [if_pos hlt]
      unfold goRound
      norm_num
    · rw [heq]
      norm_num [goRound]
  · have := float32ToS16_bounds v
    omega
  · intro u hu
    rw [u16leChunks_encode] at hu
    rcases List.mem_map.mp hu with ⟨s, _, hs⟩
    have hb := float32ToS16_bounds s
    rw [← hs, toS16_u16OfInt _ (by omega) (by omega)]
    omega

/-- C10 witness at v = -2 (an input below -1). -/
theorem claim_C10_witness :
    ((-2 : ℚ) ≤ -1 → float32ToS16 (-2) = -32767) ∧ float32ToS16 (-2) = -32767 := by
  refine ⟨(claim_C10 (-2) []).2.1, (claim_C10 (-2) []).2.1 (by norm_num)⟩

/-! ### C9 -/

theorem pcm_ok_of_decode (p : PCMProcessor) (frame : List ℕ) (s : List ℚ)
    (h : decodeSamples frame p.encoding = .ok s) :
    isOkE (pcmProcess p frame) = true := by
  unfold pcmProcess
  rw [h]
  dsimp only
  split
  · rfl
  · cases p.resampler with
    | none => rfl
    | some r =>
        dsimp only
        split <;> rfl

/-- C9: Process fails with the unaligned error exactly when the frame
length is not a multiple of the declared encoding's sample size (4 for
f32le, 2 for s16le), fails for every other encoding, and an empty frame
yields empty output without error; PushAudio sends nothing upstream for
an empty frame. -/
theorem claim_C9 (p : PCMProcessor) (frame : List ℕ) (sessionID : String) :
    (p.encoding = "f32le" →
       ((isOkE (pcmProcess p frame) = true) ↔ frame.length % 4 = 0)
       ∧ (frame.length % 4 ≠ 0 → pcmProcess p frame = .error .unalignedF32))
    ∧ (p.encoding = "s16le" →
       ((isOkE (pcmProcess p frame) = true) ↔ frame.length % 2 = 0)
       ∧ (frame.length % 2 ≠ 0 → pcmProcess p frame = .error .unalignedS16))
    ∧ (p.encoding ≠ "f32le" → p.encoding ≠ "s16le" →
       pcmProcess p frame = .error .unsupportedEncoding)
    ∧ ((p.encoding = "f32le" ∨ p.encoding = "s16le") → pcmProcess p [] = .ok (p, []))
    ∧ pushAudio p false none sessionID [] = (p, .nothingSent) := by
  refine ⟨?_, ?_, ?_, ?_, rfl⟩
  · intro henc
    by_cases halign : frame.length % 4 = 0
    · have hdec : decodeSamples frame p.encoding = .ok ((u32leChunks frame).map f32FromBits) := by
        unfold decodeSamples
        rw [henc]
        simp [halign]
      exact ⟨by simp [pcm_ok_of_decode p frame _ hdec, halign],
             fun hodd => absurd halign hodd⟩
    · have herr : pcmProcess p frame = .error .unalignedF32 := by
        unfold pcmProcess decodeSamples
        rw [henc]
        simp [halign]
      exact ⟨by rw [herr]; simpa [isOkE] using halign, fun _ => herr⟩
  · intro henc
    by_cases halign : frame.length % 2 = 0
    · have hdec : decodeSamples frame p.encoding
          = .ok ((u16leChunks frame).map fun u => (toS16 u : ℚ) / 32768) := by
        unfold decodeSamples
        rw [henc]
        simp [halign]
      exact ⟨by simp [pcm_ok_of_decode p frame _ hdec, halign],
             fun hodd => absurd halign hodd⟩
    · have herr : pcmProcess p frame = .error .unalignedS16 := by
        unfold pcmProcess decodeSamples
        rw [henc]
        simp [halign]
      exact ⟨by rw [herr]; simpa [isOkE] using halign, fun _ => herr⟩
  · intro h1 h2
    unfold pcmProcess decodeSamples
    simp [h1, h2]
  · rintro (henc | henc) <;>
      · unfold pcmProcess decodeSamples
        rw [henc]
        simp [u32leChunks, u16leChunks]

/-- C9 witness: a one-byte f32le frame is rejected as unaligned. -/
theorem claim_C9_witness :
    ((⟨16000, "f32le", none⟩ : PCMProcessor).encoding = "f32le")
    ∧ pcmProcess ⟨16000, "f32le", none⟩ [1] = .error .unalignedF32 :=
  ⟨rfl, ((claim_C9 ⟨16000, "f32le", none⟩ [1] "sid").1 rfl).2 (by decide)⟩

/-! ### C3 -/

theorem s16RoundTrip_formula (v : ℤ) (h1 : -32768 ≤ v) (h2 : v ≤ 32767) :
    s16RoundTrip v = goRound ((v : ℚ) * 32767 / 32768) := by
  have h1q : (-32768 : ℚ) ≤ (v : ℚ) := by exact_mod_cast h1
  have h2q : (v : ℚ) ≤ 32767 := by exact_mod_cast h2
  unfold s16RoundTrip float32ToS16
  have hna : ¬ ((1 : ℚ) < (v : ℚ) / 32768) := by
    rw [not_lt, div_le_one (by norm_num)]
    linarith
  have hnb : ¬ ((v : ℚ) / 32768 < -1) := by
    rw [not_lt, le_div_iff (by norm_num)]
    linarith
  rw [if_neg hna, if_neg hnb]
  congr 1
  ring

theorem s16RoundTrip_id_iff (v : ℤ) (h1 : -32768 ≤ v) (h2 : v ≤ 32767) :
    s16RoundTrip v = v ↔ -16384 ≤ v ∧ v ≤ 16384 := by
  have h1q : (-32768 : ℚ) ≤ (v : ℚ) := by exact_mod_cast h1
  have h2q : (v : ℚ) ≤ 32767 := by exact_mod_cast h2
  rw [s16RoundTrip_formula v h1 h2]
  have hplus : (v : ℚ) * 32767 / 32768 + 1/2 = ((v : ℚ) * 32767 + 16384) / 32768 := by
    ring
  have hminus : -((v : ℚ) * 32767 / 32768) + 1/2 = (-(v : ℚ) * 32767 + 16384) / 32768 := by
    ring
  unfold goRound
  by_cases hv : 0 ≤ v
  · have hvq : (0 : ℚ) ≤ (v : ℚ) := by exact_mod_cast hv
    have hx0 : (0 : ℚ) ≤ (v : ℚ) * 32767 / 32768 := by
      apply div_nonneg _ (by norm_num)
      nlinarith
    rw [if_pos hx0, hplus]
    constructor
    · intro he
      refine ⟨by omega, ?_⟩
      by_contra hlt
      push_neg at hlt
      have hltq : (16384 : ℚ) < (v : ℚ) := by exact_mod_cast hlt
      have hfl : ⌊((v : ℚ) * 32767 + 16384) / 32768⌋ = v - 1 := by
        rw [Int.floor_eq_iff]
        constructor
        · rw [le_div_iff (by norm_num)]
          push_cast
          linarith
        · rw [div_lt_iff (by norm_num)]
          push_cast
          linarith
      omega
    · rintro ⟨hlo, hhi⟩
      have hhiq : (v : ℚ) ≤ 16384 := by exact_mod_cast hhi
      rw [Int.floor_eq_iff]
      constructor
      · rw [le_div_iff (by norm_num)]
        push_cast
        linarith
      · rw [div_lt_iff (by norm_num)]
        push_cast
        linarith
  · push_neg at hv
    have hvq : (v : ℚ) < 0 := by exact_mod_cast hv
    have hx0 : ¬ ((0 : ℚ) ≤ (v : ℚ) * 32767 / 32768) := by
      rw [not_le]
      apply div_neg_of_neg_of_pos _ (by norm_num)
      nlinarith
    rw [if_neg hx0, hminus]
    constructor
    · intro he
      refine ⟨?_, by omega⟩
      by_contra hlt
      push_neg at hlt
      have hltq : (v : ℚ) < -16384 := by exact_mod_cast hlt
      have hfl : ⌊(-(v : ℚ) * 32767 + 16384) / 32768⌋ = -v - 1 := by
        rw [Int.floor_eq_iff]
        constructor
        · rw [le_div_iff (by norm_num)]
          push_cast
          linarith
        · rw [div_lt_iff (by norm_num)]
          push_cast
          linarith
      omega
    · rintro ⟨hlo, hhi⟩
      have hloq : (-16384 : ℚ) ≤ (v : ℚ) := by exact_mod_cast hlo
      have hfl : ⌊(-(v : ℚ) * 32767 + 16384) / 32768⌋ = -v := by
        rw [Int.floor_eq_iff]
        constructor
        · rw [le_div_iff (by norm_num)]
          push_cast
          linarith
        · rw [div_lt_iff (by norm_num)]
          push_cast
          linarith
      omega

theorem encode_map_chunks (data : List ℕ) :
    float32ToS16Bytes ((u16leChunks data).map fun u => (toS16 u : ℚ) / 32768)
      = s16RoundTripBytes data := by
  induction data using u16leChunks.induct with
  | case1 b0 b1 rest ih =>
      simp only [u16leChunks, List.map, float32ToS16Bytes, s16RoundTripBytes, ih]
      rfl
  | case2 x h =>
      cases x with
      | nil => rfl
      | cons b0 t =>
          cases t with
          | nil => rfl
          | cons b1 r => exact (h b0 b1 r rfl).elim

theorem pcm_s16_stream (data : List ℕ) (hlen : data.length % 2 = 0) :
    pcmProcess ⟨16000, "s16le", none⟩ data
      = .ok (⟨16000, "s16le", none⟩, s16RoundTripBytes data) := by
  have hdec : decodeSamples data "s16le"
      = .ok ((u16leChunks data).map fun u => (toS16 u : ℚ) / 32768) := by
    unfold decodeSamples
    simp [hlen]
  unfold pcmProcess
  rw [hdec]
  dsimp only
  split
  · rename_i hempty
    rw [← encode_map_chunks, hempty]
    rfl
  · rw [encode_map_chunks]

theorem s16RoundTrip_32767 : s16RoundTrip 32767 = 32766 := by
  rw [s16RoundTrip_formula 32767 (by decide) (by decide)]
  unfold goRound
  rw [if_pos (by norm_num)]
  rw [show ((32767 : ℤ) : ℚ) * 32767 / 32768 + 1/2 = 1073692673/32768 by norm_num]
  norm_num

/-- C3 counterexample: the s16le sample 32767 (bytes FF 7F) comes back
as 32766 (bytes FE 7F), so Process at rate 16000 is not the identity on
byte streams. -/
theorem claim_C3_counterexample :
    newPCMProcessor 16000 "s16le" = .ok ⟨16000, "s16le", none⟩
    ∧ pcmProcess ⟨16000, "s16le", none⟩ [255, 127]
        = .ok (⟨16000, "s16le", none⟩, [254, 127])
    ∧ ([254, 127] : List ℕ) ≠ [255, 127] := by
  refine ⟨by decide, ?_, by decide⟩
  rw [pcm_s16_stream [255, 127] (by decide)]
  have hbytes : s16RoundTripBytes [255, 127] = [254, 127] := by
    simp only [s16RoundTripBytes]
    rw [show toS16 (255 + 256 * 127) = 32767 by decide]
    rw [s16RoundTrip_32767]
    decide
  rw [hbytes]

theorem s16RoundTripBytes_id (data : List ℕ) :
    (∀ b ∈ data, b < 256) → data.length % 2 = 0 →
    (∀ u ∈ u16leChunks data, -16384 ≤ toS16 u ∧ toS16 u ≤ 16384) →
    s16RoundTripBytes data = data := by
  induction data using s16RoundTripBytes.induct with
  | case1 b0 b1 rest ih =>
      intro hb hlen hsmall
      have hb0 : b0 < 256 := hb b0 (by simp)
      have hb1 : b1 < 256 := hb b1 (by simp)
      have hu : b0 + 256 * b1 < 65536 := by omega
      have hrange : -32768 ≤ toS16 (b0 + 256 * b1) ∧ toS16 (b0 + 256 * b1) ≤ 32767 := by
        unfold toS16
        split <;> omega
      have hsm := hsmall (b0 + 256 * b1) (by simp [u16leChunks])
      have hid : s16RoundTrip (toS16 (b0 + 256 * b1)) = toS16 (b0 + 256 * b1) :=
        (s16RoundTrip_id_iff _ hrange.1 hrange.2).mpr hsm
      have hrest : s16RoundTripBytes rest = rest := by
        apply ih
        · intro b hbmem
          exact hb b (by simp [hbmem])
        · simp only [List.length_cons] at hlen
          omega
        · intro u humem
          exact hsmall u (by simp [u16leChunks, humem])
      simp only [s16RoundTripBytes, hid, u16OfInt_toS16 _ hu, hrest]
      have e0 : (b0 + 256 * b1) % 256 = b0 := by omega
      have e1 : (b0 + 256 * b1) / 256 % 256 = b1 := by omega
      rw [e0, e1]
  | case2 x h =>
      intro hb hlen hsmall
      cases x with
      | nil => rfl
      | cons b0 t =>
          cases t with
          | nil => simp at hlen
          | cons b1 r => exact (h b0 b1 r rfl).elim

/-- C3 amended: for s16le input at rate 16000, Process applies
round(v*32767/32768) to every 16-bit sample; this is the identity
exactly on samples in [-16384, 16384], so byte streams all of whose
samples lie in that band survive bit-exactly, while larger magnitudes
lose one step (32767 becomes 32766, -32768 becomes -32767). -/
theorem claim_C3_amended (data : List ℕ) (hb : ∀ b ∈ data, b < 256)
    (hlen : data.length % 2 = 0) (v : ℤ) (h1 : -32768 ≤ v) (h2 : v ≤ 32767) :
    pcmProcess ⟨16000, "s16le", none⟩ data
      = .ok (⟨16000, "s16le", none⟩, s16RoundTripBytes data)
    ∧ (s16RoundTrip v = v ↔ -16384 ≤ v ∧ v ≤ 16384)
    ∧ ((∀ u ∈ u16leChunks data, -16384 ≤ toS16 u ∧ toS16 u ≤ 16384) →
        s16RoundTripBytes data = data) :=
  ⟨pcm_s16_stream data hlen, s16RoundTrip_id_iff v h1 h2,
   s16RoundTripBytes_id data hb hlen⟩

/-- C3 amended witness at the in-band sample 10000 (bytes 10 27). -/
theorem claim_C3_amended_witness :
    pcmProcess ⟨16000, "s16le", none⟩ [16, 39]
      = .ok (⟨16000, "s16le", none⟩, s16RoundTripBytes [16, 39])
    ∧ (s16RoundTrip 10000 = 10000 ↔ -16384 ≤ (10000 : ℤ) ∧ (10000 : ℤ) ≤ 16384)
    ∧ ((∀ u ∈ u16leChunks [16, 39], -16384 ≤ toS16 u ∧ toS16 u ≤ 16384) →
        s16RoundTripBytes [16, 39] = [16, 39]) :=
  claim_C3_amended [16, 39] (by decide) (by decide) 10000 (by decide) (by decide)

/-! ### C6 -/

theorem setError_noop (s : SessState) (e : SErr) (x : Option SErr)
    (h : s.errSlot = some e) : setError s x = s := by
  unfold setError
  cases x with
  | none => rfl
  | some y => simp [h]

theorem foldl_setError_frozen (calls : List (Option SErr)) :
    ∀ (s : SessState) (e : SErr), s.errSlot = some e → calls.foldl setError s = s := by
  induction calls with
  | nil => intro s e _; rfl
  | cons c rest ih =>
      intro s e h
      rw [List.foldl_cons, setError_noop s e c h, ih s e h]

theorem foldl_setError_characterize (calls : List (Option SErr)) :
    ∀ (s : SessState), s.errSlot = none → s.cancelled = false →
      (calls.foldl setError s).errSlot = calls.findSome? id
      ∧ (calls.foldl setError s).cancelled = (calls.findSome? id).isSome := by
  induction calls with
  | nil =>
      intro s h1 h2
      simp [List.findSome?_nil, h1, h2]
  | cons c rest ih =>
      intro s h1 h2
      cases c with
      | none =>
          have hstep : setError s none = s := rfl
          rw [List.foldl_cons, hstep]
          simpa [List.findSome?_cons, Option.isSome] using ih s h1 h2
      | some e =>
          have hstep : setError s (some e)
              = { s with errSlot := some e, cancelled := true } := by
            unfold setError
            simp [h1]
          rw [List.foldl_cons, hstep,
              foldl_setError_frozen rest _ e rfl]
          simp [List.findSome?_cons, Option.isSome]

/-- C6: the sticky error slot is write-once.  Over any sequence of
setError calls starting from a fresh session, Err() returns the first
non-nil error (or nil) and the cancellation fires exactly when some
non-nil error was passed; once set, further setError calls (with any
argument) leave the state unchanged; and the first non-nil error being
stored triggers the cancellation. -/
theorem claim_C6 :
    (∀ calls : List (Option SErr),
       sessErr (calls.foldl setError initSession) = calls.findSome? id
       ∧ (calls.foldl setError initSession).cancelled = (calls.findSome? id).isSome)
    ∧ (∀ (s : SessState) (e : SErr) (x : Option SErr),
       setError (setError s (some e)) x = setError s (some e))
    ∧ (∀ e : SErr,
       (setError initSession (some e)).errSlot = some e
       ∧ (setError initSession (some e)).cancelled = true) := by
  refine ⟨fun calls => foldl_setError_characterize calls initSession rfl rfl, ?_, ?_⟩
  · intro s e x
    by_cases h : s.errSlot = none
    · have hstep : setError s (some e) = { s with errSlot := some e, cancelled := true } := by
        unfold setError
        simp [h]
      rw [hstep, setError_noop _ e x rfl]
    · rcases Option.ne_none_iff_exists'.mp h with ⟨y, hy⟩
      rw [setError_noop s y (some e) hy, setError_noop s y x hy]
  · intro e
    exact ⟨rfl, rfl⟩

/-! ### C5 -/

/-- C5: for a FullServer frame whose event is neither 152 nor 153, the
reader step never blocks: it always proceeds to the next frame, pushing
an "event" record (event id and payload) onto the event queue when
there is room and dropping the event (queue unchanged) when the queue
is full; previously queued events keep their order (the push is an
append) and the audio queue, cancellation and error slot are
untouched. -/
theorem claim_C5 (s : SessState) (msg : VMsg) (hc : s.cancelled = false)
    (ht : msg.typ = VMsgType.fullServer)
    (he : ¬ (msg.event = 152 ∨ msg.event = 153)) :
    consumeStep s (.ok msg)
      = (if s.eventQ.length < chanCap then
           { s with eventQ := s.eventQ ++ [⟨"event", msg.event, msg.payload⟩] }
         else s,
         .proceed) := by
  unfold consumeStep
  rw [hc, if_neg Bool.false_ne_true]
  dsimp only
  rw [ht]
  dsimp only
  rw [if_neg he]
  by_cases hq : s.eventQ.length < chanCap <;> simp [hq]

/-- C5 witness: with the event queue already holding 64 records, the
step drops the new event and still proceeds. -/
theorem claim_C5_witness :
    consumeStep ⟨[], List.replicate 64 ⟨"event", 0, []⟩, false, none⟩
        (.ok ⟨.fullServer, 550, "", [7], 0⟩)
      = (⟨[], List.replicate 64 ⟨"event", 0, []⟩, false, none⟩, .proceed) := by
  have h := claim_C5 ⟨[], List.replicate 64 ⟨"event", 0, []⟩, false, none⟩
    ⟨.fullServer, 550, "", [7], 0⟩ rfl rfl (by decide)
  simpa [chanCap] using h

/-! ### C7 -/

/-- C7: Open succeeds exactly when the dial and both handshake writes
succeed, the first response is FullServer event 50 and the second is
FullServer event 150 (so any other kind or event in either phase,
including 152/153, fails); and whenever Open fails after a successful
dial, the upstream socket has been closed before Open returns. -/
theorem claim_C7 (env : OpenEnv) :
    ((clientOpen false env).ok = true ↔
       env.dialOK = true ∧ env.write1OK = true ∧ goodResp 50 env.read1
       ∧ env.write2OK = true ∧ goodResp 150 env.read2)
    ∧ ((clientOpen false env).ok = false → env.dialOK = true →
        (clientOpen false env).closedSocket = true) := by
  rcases env with ⟨d, w1, r1, w2, r2⟩
  cases r1 with
  | error u =>
      cases d <;> cases w1 <;> cases w2 <;> simp [clientOpen, goodResp]
  | ok m1 =>
      cases r2 with
      | error u2 =>
          by_cases h1 : m1.typ = VMsgType.fullServer ∧ m1.event = 50 <;>
            cases d <;> cases w1 <;> cases w2 <;>
              simp [clientOpen, goodResp, h1]
      | ok m2 =>
          by_cases h1 : m1.typ = VMsgType.fullServer ∧ m1.event = 50 <;>
            by_cases h2 : m2.typ = VMsgType.fullServer ∧ m2.event = 150 <;>
              cases d <;> cases w1 <;> cases w2 <;>
                simp [clientOpen, goodResp, h1, h2]

/-- C7 witness: a second-phase FullServer frame with event 153 makes
Open fail with the socket closed. -/
theorem claim_C7_witness :
    (clientOpen false ⟨true, true, .ok ⟨.fullServer, 50, "", [], 0⟩,
        true, .ok ⟨.fullServer, 153, "", [], 0⟩⟩).ok = false
    ∧ (clientOpen false ⟨true, true, .ok ⟨.fullServer, 50, "", [], 0⟩,
        true, .ok ⟨.fullServer, 153, "", [], 0⟩⟩).closedSocket = true :=
  ⟨by decide,
   (claim_C7 ⟨true, true, .ok ⟨.fullServer, 50, "", [], 0⟩,
      true, .ok ⟨.fullServer, 153, "", [], 0⟩⟩).2 (by decide) rfl⟩

/-! ### C8 -/

theorem backendWrites_browser (items : List BackendItem) :
    (∀ a ∈ backendWrites items, isBrowserWrite a = true)
    ∧ Action.writeReady ∉ backendWrites items := by
  induction items with
  | nil => constructor <;> simp [backendWrites]
  | cons i rest ih =>
      cases i with
      | audio b =>
          by_cases hb : b = []
          · simp only [backendWrites, if_pos hb]
            exact ih
          · simp only [backendWrites, if_neg hb]
            constructor
            · intro a ha
              rcases List.mem_cons.mp ha with h | h
              · rw [h]; rfl
              · exact ih.1 a h
            · intro hmem
              rcases List.mem_cons.mp hmem with h | h
              · exact Action.noConfusion h
              · exact ih.2 h
      | event e p =>
          simp only [backendWrites]
          constructor
          · intro a ha
            rcases List.mem_cons.mp ha with h | h
            · rw [h]; rfl
            · exact ih.1 a h
          · intro hmem
            rcases List.mem_cons.mp hmem with h | h
            · exact Action.noConfusion h
            · exact ih.2 h

/-- C8: whenever the start handshake succeeds (readStart accepts the
first frame and the session is constructed), the browser-visible write
trace is exactly one ready frame followed by the backend pump's
audio/event frames; in particular the ready frame is unique and
precedes every audio or event frame. -/
theorem claim_C8 (env : HandlerEnv) (start : StartMsg)
    (hstart : readStart env.firstRead = .ok start)
    (hsess : (newSessionActions start.sampleRate start.encoding env.openOK env.helloOK).2
      = true) :
    (handlerTrace env).filter isBrowserWrite
      = Action.writeReady :: backendWrites env.backendItems
    ∧ Action.writeReady ∉ backendWrites env.backendItems := by
  have hacts : newSessionActions start.sampleRate start.encoding env.openOK env.helloOK
      = ([.dialUpstream, .sayHello], true) := by
    unfold newSessionActions at hsess ⊢
    cases hp : newPCMProcessor start.sampleRate start.encoding with
    | error e => rw [hp] at hsess; simp at hsess
    | ok p =>
        rw [hp] at hsess
        cases ho : env.openOK <;> cases hh : env.helloOK <;>
          simp [ho, hh] at hsess ⊢
  unfold handlerTrace
  rw [hstart]
  dsimp only
  rw [hacts]
  dsimp only
  rw [if_pos rfl]
  refine ⟨?_, (backendWrites_browser env.backendItems).2⟩
  rw [List.filter_append]
  have h1 : [Action.dialUpstream, Action.sayHello].filter isBrowserWrite = [] := rfl
  have h2 : (Action.writeReady :: backendWrites env.backendItems).filter isBrowserWrite
      = Action.writeReady :: backendWrites env.backendItems := by
    rw [List.filter_cons_of_pos (by rfl)]
    rw [List.filter_eq_self.mpr (backendWrites_browser env.backendItems).1]
  rw [h1, h2, List.nil_append]

/-- C8 witness: a default start frame, a successful session and two
backend items yield ready followed by the audio and event frames. -/
theorem claim_C8_witness :
    readStart (Except.ok (WsKind.textMsg, some ⟨"start", 0, ""⟩))
      = .ok ⟨"start", 48000, "f32le"⟩
    ∧ ((handlerTrace ⟨.ok (.textMsg, some ⟨"start", 0, ""⟩), true, true,
          [.audio [1], .event 550 [2]]⟩).filter isBrowserWrite
        = Action.writeReady :: backendWrites [.audio [1], .event 550 [2]]
      ∧ Action.writeReady ∉ backendWrites [BackendItem.audio [1], .event 550 [2]]) :=
  ⟨by decide,
   claim_C8 ⟨.ok (.textMsg, some ⟨"start", 0, ""⟩), true, true,
      [.audio [1], .event 550 [2]]⟩ ⟨"start", 48000, "f32le"⟩ (by decide) (by decide)⟩

/-! ### C4 -/

/-- C4 counterexample: a start frame declaring encoding opus is accepted
and the handler proceeds to dial the upstream and send ready — it never
writes an error frame at start time, contradicting the claim that the
bridge errors out and closes without contacting the upstream. -/
theorem claim_C4_counterexample :
    handlerTrace ⟨.ok (.textMsg, some ⟨"start", 48000, "opus"⟩), true, true, []⟩
      = [Action.dialUpstream, Action.sayHello, Action.writeReady]
    ∧ Action.dialUpstream
        ∈ handlerTrace ⟨.ok (.textMsg, some ⟨"start", 48000, "opus"⟩), true, true, []⟩
    ∧ Action.writeErrorFrame
        ∉ handlerTrace ⟨.ok (.textMsg, some ⟨"start", 48000, "opus"⟩), true, true, []⟩ := by
  refine ⟨by decide, by decide, by decide⟩

/-- C4 amended: neither readStart nor the processor constructor validates
the encoding, so an opus start is accepted, the upstream is dialed and
the greeting and ready frame are sent; the unsupported-encoding error
surfaces only when a frame is pushed through the PCM pipeline, where
decoding fails for every input. -/
theorem claim_C4_amended :
    readStart (Except.ok (WsKind.textMsg, some ⟨"start", 48000, "opus"⟩))
      = .ok ⟨"start", 48000, "opus"⟩
    ∧ isOkE (newPCMProcessor 48000 "opus") = true
    ∧ handlerTrace ⟨.ok (.textMsg, some ⟨"start", 48000, "opus"⟩), true, true, []⟩
        = [Action.dialUpstream, Action.sayHello, Action.writeReady]
    ∧ ∀ frame : List ℕ, decodeSamples frame "opus" = .error .unsupportedEncoding := by
  refine ⟨by decide, by decide, by decide, ?_⟩
  intro frame
  unfold decodeSamples
  simp

/-! ### C1: list and floor arithmetic groundwork -/

theorem getD_drop (l : List ℚ) (w i : ℕ) : (l.drop w).getD i 0 = l.getD (w + i) 0 := by
  induction l generalizing w with
  | nil => simp [List.getD]
  | cons a t ih =>
      cases w with
      | zero => simp
      | succ w' =>
          simp only [List.drop_succ_cons]
          rw [ih w', show w' + 1 + i = (w' + i) + 1 from by omega]
          simp only [List.getD_cons_succ]

theorem getD_take (l : List ℚ) (n i : ℕ) (h : i < n) : (l.take n).getD i 0 = l.getD i 0 := by
  induction l generalizing n i with
  | nil => simp [List.getD]
  | cons a t ih =>
      cases n with
      | zero => omega
      | succ n' =>
          cases i with
          | zero => rfl
          | succ i' =>
              simp only [List.take_succ_cons, List.getD_cons_succ]
              exact ih n' i' (by omega)

theorem getD_cons_drop (l : List ℚ) (i : ℕ) (h : i < l.length) :
    l.drop i = l.getD i 0 :: l.drop (i + 1) := by
  induction l generalizing i with
  | nil => simp at h
  | cons a t ih =>
      cases i with
      | zero => rfl
      | succ i' =>
          simp only [List.drop_succ_cons, List.getD_cons_succ]
          exact ih i' (by simpa using h)

/-- Positional stability: an interpolation point strictly below m - 1
reads only samples of the length-m prefix. -/
theorem interpAt_take (S : List ℚ) (m : ℕ) (p : ℚ) (hp : 0 ≤ p)
    (hlt : p < (m : ℚ) - 1) :
    interpAt (S.take m) p = interpAt S p := by
  have hfl : (⌊p⌋ : ℚ) ≤ p := Int.floor_le p
  have hfl0 : 0 ≤ ⌊p⌋ := Int.floor_nonneg.mpr hp
  have hflm : ⌊p⌋ < (m : ℤ) - 1 := by
    have : (⌊p⌋ : ℚ) < (m : ℚ) - 1 := lt_of_le_of_lt hfl hlt
    exact_mod_cast this
  have hidx : ⌊p⌋.toNat + 1 < m := by omega
  unfold interpAt
  rw [getD_take S m _ (by omega), getD_take S m _ hidx]

theorem idealCount_mul_ge (step : ℚ) (hstep : 0 < step) (n : ℕ) (hn : 1 ≤ n) :
    ((n : ℚ) - 1) ≤ ((idealCount step n : ℕ) : ℚ) * step := by
  have hx0 : (0 : ℚ) ≤ ((n : ℚ) - 1) / step := by
    apply div_nonneg _ (le_of_lt hstep)
    have : (1 : ℚ) ≤ (n : ℚ) := by exact_mod_cast hn
    linarith
  have hc0 : (0 : ℤ) ≤ ⌈((n : ℚ) - 1) / step⌉ := Int.ceil_nonneg hx0
  have hcast : ((idealCount step n : ℕ) : ℚ) = (⌈((n : ℚ) - 1) / step⌉ : ℚ) := by
    unfold idealCount
    exact_mod_cast congrArg (fun z : ℤ => (z : ℚ)) (Int.toNat_of_nonneg hc0)
  rw [hcast]
  have hle : ((n : ℚ) - 1) / step ≤ (⌈((n : ℚ) - 1) / step⌉ : ℚ) := Int.le_ceil _
  calc ((n : ℚ) - 1) = ((n : ℚ) - 1) / step * step := by field_simp
    _ ≤ (⌈((n : ℚ) - 1) / step⌉ : ℚ) * step := by
        exact mul_le_mul_of_nonneg_right hle (le_of_lt hstep)

theorem lt_idealCount_imp (step : ℚ) (hstep : 0 < step) (n k : ℕ)
    (h : k < idealCount step n) :
    (k : ℚ) * step < (n : ℚ) - 1 := by
  unfold idealCount at h
  have hz : ((k : ℕ) : ℤ) < ⌈((n : ℚ) - 1) / step⌉ := Int.lt_toNat.mp h
  have hq : ((k : ℕ) : ℚ) < ((n : ℚ) - 1) / step := by
    have := Int.lt_ceil.mp hz
    exact_mod_cast this
  calc (k : ℚ) * step < ((n : ℚ) - 1) / step * step := by
        exact mul_lt_mul_of_pos_right hq hstep
    _ = (n : ℚ) - 1 := by field_simp

theorem idealCount_le_of (step : ℚ) (hstep : 0 < step) (n K : ℕ)
    (h : ((n : ℚ) - 1) ≤ (K : ℚ) * step) :
    idealCount step n ≤ K := by
  unfold idealCount
  rw [Int.toNat_le]
  rw [Int.ceil_le]
  rw [div_le_iff hstep]
  exact_mod_cast h

theorem idealCount_mono (step : ℚ) (hstep : 0 < step) (n n' : ℕ) (h : n ≤ n') :
    idealCount step n ≤ idealCount step n' := by
  unfold idealCount
  apply Int.toNat_le_toNat
  apply Int.ceil_le_ceil
  have hq : ((n : ℚ) - 1) ≤ ((n' : ℚ) - 1) := by
    have : (n : ℚ) ≤ (n' : ℚ) := by exact_mod_cast h
    linarith
  exact (div_le_div_right hstep).mpr hq

theorem idealCount_zero (step : ℚ) (hstep : 0 < step) : idealCount step 0 = 0 := by
  unfold idealCount
  have hneg : (((0 : ℕ) : ℚ) - 1) / step < 0 := by
    apply div_neg_of_neg_of_pos _ hstep
    norm_num
  have h : ⌈(((0 : ℕ) : ℚ) - 1) / step⌉ ≤ 0 := by
    apply Int.ceil_le.mpr
    push_cast
    push_cast at hneg
    linarith
  omega

theorem idealCount_one (step : ℚ) : idealCount step 1 = 0 := by
  unfold idealCount
  norm_num

/-- Fuel bound: consuming j more input samples adds at most j·dst output
samples (one output per 1/dst of an input sample, since step ≥ 1/dst). -/
theorem idealCount_add_le (src dst : ℕ) (hsrc : 1 ≤ src) (hdst : 1 ≤ dst)
    (n j : ℕ) (hn : 1 ≤ n) :
    idealCount ((src : ℚ) / dst) (n + j) ≤ idealCount ((src : ℚ) / dst) n + j * dst := by
  have hdq : (0 : ℚ) < (dst : ℚ) := by exact_mod_cast hdst
  have hsq : (1 : ℚ) ≤ (src : ℚ) := by exact_mod_cast hsrc
  have hstep : (0 : ℚ) < (src : ℚ) / dst := div_pos (by linarith) hdq
  apply idealCount_le_of _ hstep
  have h1 : ((n : ℚ) - 1) ≤ ((idealCount ((src : ℚ) / dst) n : ℕ) : ℚ) * ((src : ℚ) / dst) :=
    idealCount_mul_ge _ hstep n hn
  have h2 : ((j * dst : ℕ) : ℚ) * ((src : ℚ) / dst) = (j : ℚ) * src := by
    push_cast
    field_simp
    ring
  push_cast
  rw [add_mul]
  push_cast at h1 h2
  rw [h2]
  have h3 : (j : ℚ) ≤ (j : ℚ) * src := by nlinarith [Nat.cast_nonneg (α := ℚ) j]
  linarith

theorem cast_sub_sub (L w : ℕ) (h : w + 1 ≤ L) :
    ((L - 1 - w : ℕ) : ℚ) = (L : ℚ) - 1 - (w : ℚ) := by
  have h1 : (L - 1 - w) + (1 + w) = L := by omega
  have h2 : (((L - 1 - w) + (1 + w) : ℕ) : ℚ) = (L : ℚ) := by
    exact_mod_cast congrArg (fun x : ℕ => (x : ℚ)) h1
  push_cast at h2
  linarith

/-- The loop characterization: started at absolute read position K0·step
(expressed window-locally against the window T.drop w as K0·step − w),
with d = idealCount(|T|) − K0 more interpolation points available before
position |T|−1, the loop emits exactly the interpolation values of T at
positions K0·step, (K0+1)·step, …, and stops at absolute position
(K0+d)·step. -/
theorem lrLoopF_spec (T : List ℚ) (w : ℕ) (step : ℚ) (hstep : 0 < step) :
    ∀ (d fuel K0 : ℕ), d ≤ fuel →
      (w : ℚ) ≤ (K0 : ℚ) * step →
      idealCount step T.length = K0 + d →
      w + 1 ≤ T.length →
      lrLoopF fuel (T.drop w) (T.length - 1 - w) step ((K0 : ℚ) * step - (w : ℚ))
        = ((List.range d).map fun k => interpAt T (((K0 + k : ℕ) : ℚ) * step),
           ((K0 + d : ℕ) : ℚ) * step - (w : ℚ)) := by
  intro d
  induction d with
  | zero =>
      intro fuel K0 hdf hw hK hwL
      have hge : ((T.length : ℚ) - 1) ≤ (K0 : ℚ) * step := by
        have h := idealCount_mul_ge step hstep T.length (by omega)
        rw [hK] at h
        simpa using h
      have hposge : ((T.length - 1 - w : ℕ) : ℚ) ≤ (K0 : ℚ) * step - w := by
        rw [cast_sub_sub T.length w hwL]
        linarith
      have hfloor : ((T.length - 1 - w : ℕ) : ℤ) ≤ ⌊(K0 : ℚ) * step - (w : ℚ)⌋ :=
        Int.le_floor.mpr (by exact_mod_cast hposge)
      have hguard : ¬ (⌊(K0 : ℚ) * step - (w : ℚ)⌋.toNat + 1 ≤ T.length - 1 - w) := by
        omega
      cases fuel with
      | zero => simp [lrLoopF]
      | succ f =>
          simp only [lrLoopF, if_neg hguard]
          simp
  | succ d ih =>
      intro fuel K0 hdf hw hK hwL
      cases fuel with
      | zero => omega
      | succ f =>
          have hlt : (K0 : ℚ) * step < (T.length : ℚ) - 1 := by
            have hk : K0 < idealCount step T.length := by omega
            exact lt_idealCount_imp step hstep T.length K0 hk
          have hpos0 : (0 : ℚ) ≤ (K0 : ℚ) * step - w := by linarith
          have hfl0 : 0 ≤ ⌊(K0 : ℚ) * step - (w : ℚ)⌋ := Int.floor_nonneg.mpr hpos0
          have hflub : (⌊(K0 : ℚ) * step - (w : ℚ)⌋ : ℚ) ≤ (K0 : ℚ) * step - w :=
            Int.floor_le _
          have hfllt : ⌊(K0 : ℚ) * step - (w : ℚ)⌋ < ((T.length - 1 - w : ℕ) : ℤ) := by
            apply Int.floor_lt.mpr
            rw [show (((T.length - 1 - w : ℕ) : ℤ) : ℚ) = ((T.length - 1 - w : ℕ) : ℚ) by
              push_cast; ring]
            rw [cast_sub_sub T.length w hwL]
            linarith
          have hguard : ⌊(K0 : ℚ) * step - (w : ℚ)⌋.toNat + 1 ≤ T.length - 1 - w := by
            omega
          have hshift : ((K0 : ℚ) * step - (w : ℚ)) + step
              = (((K0 + 1 : ℕ)) : ℚ) * step - (w : ℚ) := by
            push_cast
            ring
          have hw' : (w : ℚ) ≤ ((K0 + 1 : ℕ) : ℚ) * step := by
            push_cast
            nlinarith
          have hrec := ih f (K0 + 1) (by omega) hw' (by omega) hwL
          simp only [lrLoopF, if_pos hguard]
          rw [hshift, hrec]
          -- split the pair
          refine congrArg₂ Prod.mk ?_ ?_
          · -- emitted samples
            rw [List.range_succ_eq_map, List.map_cons, List.map_map]
            refine congrArg₂ List.cons ?_ ?_
            · -- head value equals interpAt T (K0·step)
              have hfadd : ⌊(K0 : ℚ) * step⌋ = ⌊(K0 : ℚ) * step - (w : ℚ)⌋ + (w : ℕ) := by
                have h := Int.floor_add_nat ((K0 : ℚ) * step - (w : ℚ)) w
                simpa using h
              have hidx : ⌊(K0 : ℚ) * step⌋.toNat
                  = w + ⌊(K0 : ℚ) * step - (w : ℚ)⌋.toNat := by omega
              simp only [Nat.add_zero]
              unfold interpAt
              rw [hidx,
                  show w + ⌊(K0 : ℚ) * step - (w : ℚ)⌋.toNat + 1
                    = w + (⌊(K0 : ℚ) * step - (w : ℚ)⌋.toNat + 1) from by omega,
                  ← getD_drop T w, ← getD_drop T w]
              push_cast
              ring
            · -- tail: reindex the recursive outputs
              apply List.map_congr_left
              intro k _
              simp only [Function.comp]
              refine congrArg (interpAt T) ?_
              push_cast
              ring
          · -- final position
            push_cast
            ring

/-- Processing the first batch from a fresh resampler establishes the
invariant state and emits the ideal prefix for the consumed samples. -/
theorem lrProcess_first (src dst : ℕ) (hsrc : 1 ≤ src) (hdst : 1 ≤ dst)
    (S B : List ℚ) (hB : B ≠ []) (hBS : B = S.take B.length)
    (hlen : B.length ≤ S.length) :
    lrProcess (newLinearResampler src dst) B
      = (invState src dst S B.length,
         (List.range (idealCount ((src : ℚ) / dst) B.length)).map
           fun k : ℕ => interpAt S ((k : ℚ) * ((src : ℚ) / dst))) := by
  have hdq : (0 : ℚ) < (dst : ℚ) := by exact_mod_cast hdst
  have hsq : (0 : ℚ) < (src : ℚ) := by exact_mod_cast hsrc
  have hstep : (0 : ℚ) < (src : ℚ) / dst := div_pos hsq hdq
  set m := B.length with hmB
  have hm : 1 ≤ m := by
    have := List.length_pos.mpr hB
    omega
  have hTlen : (S.take m).length = m := by
    rw [List.length_take]
    omega
  by_cases hm1 : m = 1
  · -- single-sample window: only the tail is stored
    unfold lrProcess
    rw [if_neg hB]
    simp only [newLinearResampler, Bool.false_eq_true, if_false]
    rw [if_pos (show B.length - 1 = 0 from by omega)]
    rw [hm1, idealCount_one]
    unfold invState
    rw [idealCount_one]
    refine congrArg₂ Prod.mk ?_ ?_
    · simp only [LinearResampler.mk.injEq, and_true, true_and]
      constructor
      · push_cast
        ring
      · rw [show B.length - 1 = 0 from by omega, hBS, getD_take S m 0 (by omega)]
    · simp
  · have hm2 : 2 ≤ m := by omega
    have hspec := lrLoopF_spec (S.take m) 0 ((src : ℚ) / dst) hstep
      (idealCount ((src : ℚ) / dst) m) (m * dst + dst + 1) 0
      ?hdf ?hw ?hK ?hwL
    case hdf =>
      have hb := idealCount_add_le src dst hsrc hdst 1 (m - 1) (by omega)
      rw [show 1 + (m - 1) = m from by omega, idealCount_one] at hb
      calc idealCount ((src : ℚ) / dst) m ≤ 0 + (m - 1) * dst := hb
        _ ≤ m * dst + dst + 1 := by
            have : (m - 1) * dst ≤ m * dst := Nat.mul_le_mul_right dst (by omega)
            omega
    case hw => simp
    case hK =>
      rw [hTlen]
      omega
    case hwL => omega
    rw [hTlen] at hspec
    simp only [List.drop_zero, Nat.cast_zero, zero_mul, zero_sub, neg_zero, sub_zero,
      Nat.sub_zero, Nat.zero_add, zero_add] at hspec
    rw [← hBS] at hspec
    unfold lrProcess
    rw [if_neg hB]
    simp only [newLinearResampler, Bool.false_eq_true, if_false]
    rw [if_neg (show ¬ (B.length - 1 = 0) from by omega)]
    simp only [← hmB]
    rw [hspec]
    have hcastm : ((m - 1 : ℕ) : ℚ) = (m : ℚ) - 1 := by
      push_cast [Nat.cast_sub hm]
      ring
    have hposok : ¬ (((idealCount ((src : ℚ) / dst) m : ℕ) : ℚ) * ((src : ℚ) / dst)
        - ((m - 1 : ℕ) : ℚ) < 0) := by
      push_neg
      rw [hcastm]
      have := idealCount_mul_ge ((src : ℚ) / dst) hstep m hm
      linarith
    rw [if_neg hposok]
    refine congrArg₂ Prod.mk ?_ ?_
    · unfold invState
      simp only [LinearResampler.mk.injEq, and_true, true_and]
      rw [hBS, getD_take S m (m - 1) (by omega)]
    · dsimp only
      apply List.map_congr_left
      intro k hk
      have hk' : k < idealCount ((src : ℚ) / dst) m := List.mem_range.mp hk
      have hlt := lt_idealCount_imp ((src : ℚ) / dst) hstep m k hk'
      have hge : (0 : ℚ) ≤ (k : ℚ) * ((src : ℚ) / dst) := by positivity
      rw [hBS]
      exact interpAt_take S m _ hge hlt

/-- Processing a further batch from the invariant state advances the
invariant and emits exactly the next slice of the ideal series. -/
theorem lrProcess_next (src dst : ℕ) (hsrc : 1 ≤ src) (hdst : 1 ≤ dst)
    (S B : List ℚ) (n : ℕ) (hn : 1 ≤ n) (hB : B ≠ [])
    (hBS : B = (S.drop n).take B.length) (hlen : n + B.length ≤ S.length) :
    lrProcess (invState src dst S n) B
      = (invState src dst S (n + B.length),
         (List.range (idealCount ((src : ℚ) / dst) (n + B.length)
             - idealCount ((src : ℚ) / dst) n)).map
           fun k : ℕ => interpAt S
             (((idealCount ((src : ℚ) / dst) n + k : ℕ) : ℚ) * ((src : ℚ) / dst))) := by
  have hdq : (0 : ℚ) < (dst : ℚ) := by exact_mod_cast hdst
  have hsq : (0 : ℚ) < (src : ℚ) := by exact_mod_cast hsrc
  have hstep : (0 : ℚ) < (src : ℚ) / dst := div_pos hsq hdq
  set j := B.length with hjB
  have hj : 1 ≤ j := by
    have := List.length_pos.mpr hB
    omega
  have hTlen : (S.take (n + j)).length = n + j := by
    rw [List.length_take]
    omega
  have hmono : idealCount ((src : ℚ) / dst) n ≤ idealCount ((src : ℚ) / dst) (n + j) :=
    idealCount_mono _ hstep n (n + j) (by omega)
  have hdata : S.getD (n - 1) 0 :: B = (S.take (n + j)).drop (n - 1) := by
    rw [List.drop_take]
    rw [show n + j - (n - 1) = j + 1 from by omega]
    rw [getD_cons_drop S (n - 1) (by omega)]
    rw [show n - 1 + 1 = n from by omega]
    rw [List.take_succ_cons, ← hBS]
  have hcast1 : ((n - 1 : ℕ) : ℚ) = (n : ℚ) - 1 := by
    push_cast [Nat.cast_sub hn]
    ring
  have hcast2 : ((n + j - 1 : ℕ) : ℚ) = (n : ℚ) + (j : ℚ) - 1 := by
    push_cast [Nat.cast_sub (show 1 ≤ n + j from by omega)]
    ring
  have hspec := lrLoopF_spec (S.take (n + j)) (n - 1) ((src : ℚ) / dst) hstep
    (idealCount ((src : ℚ) / dst) (n + j) - idealCount ((src : ℚ) / dst) n)
    (j * dst + dst + 1) (idealCount ((src : ℚ) / dst) n)
    ?hdf ?hw ?hK ?hwL
  case hdf =>
    have hb := idealCount_add_le src dst hsrc hdst n j hn
    omega
  case hw =>
    rw [hcast1]
    exact idealCount_mul_ge _ hstep n hn
  case hK =>
    rw [hTlen]
    omega
  case hwL =>
    rw [hTlen]
    omega
  rw [hTlen] at hspec
  rw [show n + j - 1 - (n - 1) = j from by omega] at hspec
  rw [← hdata] at hspec
  have hCK : idealCount ((src : ℚ) / dst) n
      + (idealCount ((src : ℚ) / dst) (n + j) - idealCount ((src : ℚ) / dst) n)
      = idealCount ((src : ℚ) / dst) (n + j) := by omega
  unfold lrProcess
  rw [if_neg hB]
  simp only [invState, if_true]
  simp only [List.length_cons, Nat.add_sub_cancel]
  rw [if_neg (show ¬ (B.length = 0) from by omega)]
  simp only [← hjB]
  rw [hspec]
  dsimp only
  have hposval : ((idealCount ((src : ℚ) / dst) n
        + (idealCount ((src : ℚ) / dst) (n + j) - idealCount ((src : ℚ) / dst) n) : ℕ) : ℚ)
      = ((idealCount ((src : ℚ) / dst) (n + j) : ℕ) : ℚ) := by
    exact_mod_cast congrArg (fun x : ℕ => (x : ℚ)) hCK
  have hge := idealCount_mul_ge ((src : ℚ) / dst) hstep (n + j) (by omega)
  have hposok : ¬ (((idealCount ((src : ℚ) / dst) n
        + (idealCount ((src : ℚ) / dst) (n + j) - idealCount ((src : ℚ) / dst) n) : ℕ) : ℚ)
          * ((src : ℚ) / dst) - ((n - 1 : ℕ) : ℚ) - ((j : ℕ) : ℚ) < 0) := by
    push_neg
    rw [hposval, hcast1]
    push_cast
    push_cast at hge
    linarith
  rw [if_neg hposok]
  refine congrArg₂ Prod.mk ?_ ?_
  · simp only [LinearResampler.mk.injEq, and_true, true_and]
    constructor
    · rw [hposval, hcast1, hcast2]
      push_cast
      ring
    · rw [hdata, getD_drop, show n - 1 + j = n + j - 1 from by omega,
          getD_take S (n + j) (n + j - 1) (by omega)]
  · apply List.map_congr_left
    intro k hk
    have hk' : k < idealCount ((src : ℚ) / dst) (n + j) - idealCount ((src : ℚ) / dst) n :=
      List.mem_range.mp hk
    have hklt : idealCount ((src : ℚ) / dst) n + k < idealCount ((src : ℚ) / dst) (n + j) := by
      omega
    have hlt := lt_idealCount_imp ((src : ℚ) / dst) hstep (n + j) _ hklt
    have hge0 : (0 : ℚ) ≤ ((idealCount ((src : ℚ) / dst) n + k : ℕ) : ℚ)
        * ((src : ℚ) / dst) := by positivity
    exact interpAt_take S (n + j) _ hge0 hlt

/-- Folding Process over any further non-empty batches from the
invariant state emits exactly the remaining ideal series. -/
theorem lrProcessAll_glue (src dst : ℕ) (hsrc : 1 ≤ src) (hdst : 1 ≤ dst) (S : List ℚ)
    (bs : List (List ℚ)) :
    (∀ b ∈ bs, b ≠ []) → ∀ n : ℕ, 1 ≤ n → S.drop n = bs.join →
      lrProcessAll (invState src dst S n) bs
        = (List.range (idealCount ((src : ℚ) / dst) S.length
            - idealCount ((src : ℚ) / dst) n)).map
            fun k : ℕ => interpAt S
              (((idealCount ((src : ℚ) / dst) n + k : ℕ) : ℚ) * ((src : ℚ) / dst)) := by
  have hdq : (0 : ℚ) < (dst : ℚ) := by exact_mod_cast hdst
  have hsq : (0 : ℚ) < (src : ℚ) := by exact_mod_cast hsrc
  have hstep : (0 : ℚ) < (src : ℚ) / dst := div_pos hsq hdq
  induction bs with
  | nil =>
      intro _ n hn hdrop
      simp only [List.join] at hdrop
      have hle : S.length ≤ n := List.drop_eq_nil_iff.mp hdrop
      have hmono := idealCount_mono ((src : ℚ) / dst) hstep S.length n hle
      rw [show idealCount ((src : ℚ) / dst) S.length - idealCount ((src : ℚ) / dst) n = 0
        from by omega]
      simp [lrProcessAll]
  | cons b bs' ih =>
      intro hne n hn hdrop
      have hb : b ≠ [] := hne b (by simp)
      have hj : 1 ≤ b.length := by
        have := List.length_pos.mpr hb
        omega
      have hdropn : S.drop n = b ++ bs'.join := by
        rw [hdrop]
        rfl
      have hBS : b = (S.drop n).take b.length := by
        rw [hdropn, List.take_left]
      have hlen2 : n + b.length ≤ S.length := by
        have hlendrop : (S.drop n).length = S.length - n := List.length_drop n S
        rw [hdropn, List.length_append] at hlendrop
        omega
      have hstepb := lrProcess_next src dst hsrc hdst S b n hn hb hBS hlen2
      simp only [lrProcessAll]
      rw [hstepb]
      dsimp only
      have hdrop' : S.drop (n + b.length) = bs'.join := by
        rw [← List.drop_drop, hdropn, List.drop_left]
      rw [ih (fun x hx => hne x (by simp [hx])) (n + b.length) (by omega) hdrop']
      have hm1 : idealCount ((src : ℚ) / dst) n ≤ idealCount ((src : ℚ) / dst) (n + b.length) :=
        idealCount_mono _ hstep _ _ (by omega)
      have hm2 : idealCount ((src : ℚ) / dst) (n + b.length)
          ≤ idealCount ((src : ℚ) / dst) S.length :=
        idealCount_mono _ hstep _ _ hlen2
      conv_rhs =>
        rw [show idealCount ((src : ℚ) / dst) S.length - idealCount ((src : ℚ) / dst) n
              = (idealCount ((src : ℚ) / dst) (n + b.length) - idealCount ((src : ℚ) / dst) n)
                + (idealCount ((src : ℚ) / dst) S.length
                  - idealCount ((src : ℚ) / dst) (n + b.length)) from by omega,
            List.range_add]
      rw [List.map_append, List.map_map]
      refine congrArg₂ (· ++ ·) rfl ?_
      apply List.map_congr_left
      intro k _
      simp only [Function.comp]
      refine congrArg (interpAt S) ?_
      refine congrArg (fun t : ℚ => t * ((src : ℚ) / dst)) ?_
      refine congrArg (fun x : ℕ => (x : ℚ)) ?_
      omega

/-- C1: for every source rate other than 16000 and every partition of an
input stream into non-empty batches, the concatenation of the
resampler's Process outputs equals the series linear interpolation over
the whole concatenated input would produce — every point k·step strictly
before the last consumed sample's position; the points at or beyond it
depend on the retained in-flight tail.  The result is independent of the
chosen partition.  (Float arithmetic is idealized as exact rationals.) -/
theorem claim_C1 (src : ℕ) (hsrc : 0 < src) (hne16 : src ≠ 16000)
    (batches : List (List ℚ)) (hb : ∀ b ∈ batches, b ≠ []) :
    lrProcessAll (newLinearResampler src 16000) batches
      = idealResample ((src : ℚ) / 16000) batches.join := by
  rw [show (16000 : ℚ) = ((16000 : ℕ) : ℚ) from by norm_num]
  have hstep : (0 : ℚ) < (src : ℚ) / ((16000 : ℕ) : ℚ) := by
    apply div_pos
    · exact_mod_cast hsrc
    · norm_num
  cases batches with
  | nil =>
      have hstepl : (0 : ℚ) < (src : ℚ) / 16000 := by
        apply div_pos
        · exact_mod_cast hsrc
        · norm_num
      unfold idealResample
      rw [show (([] : List (List ℚ)).join) = ([] : List ℚ) from rfl]
      simp [lrProcessAll, idealCount_zero _ hstepl]
  | cons b bs =>
      have hb1 : b ≠ [] := hb b (by simp)
      have hm1 : 1 ≤ b.length := by
        have := List.length_pos.mpr hb1
        omega
      have hSb : (b :: bs).join = b ++ bs.join := rfl
      have hBS : b = ((b :: bs).join).take b.length := by
        rw [hSb, List.take_left]
      have hlen : b.length ≤ ((b :: bs).join).length := by
        rw [hSb, List.length_append]
        omega
      have h1 := lrProcess_first src 16000 (by omega) (by norm_num)
        ((b :: bs).join) b hb1 hBS hlen
      simp only [lrProcessAll]
      rw [h1]
      dsimp only
      have hdrop : ((b :: bs).join).drop b.length = bs.join := by
        rw [hSb, List.drop_left]
      rw [lrProcessAll_glue src 16000 (by omega) (by norm_num) ((b :: bs).join) bs
        (fun x hx => hb x (by simp [hx])) b.length (by omega) hdrop]
      unfold idealResample
      have hm2 : idealCount ((src : ℚ) / ((16000 : ℕ) : ℚ)) b.length
          ≤ idealCount ((src : ℚ) / ((16000 : ℕ) : ℚ)) ((b :: bs).join).length :=
        idealCount_mono _ hstep _ _ hlen
      conv_rhs =>
        rw [show idealCount ((src : ℚ) / ((16000 : ℕ) : ℚ)) ((b :: bs).join).length
              = idealCount ((src : ℚ) / ((16000 : ℕ) : ℚ)) b.length
                + (idealCount ((src : ℚ) / ((16000 : ℕ) : ℚ)) ((b :: bs).join).length
                  - idealCount ((src : ℚ) / ((16000 : ℕ) : ℚ)) b.length) from by omega,
            List.range_add]
      rw [List.map_append, List.map_map]
      refine congrArg₂ (· ++ ·) rfl ?_
      apply List.map_congr_left
      intro k _
      simp only [Function.comp]

/-- C1 witness: rate 48000, the stream 1,2,3 split as [1] then [2,3]. -/
theorem claim_C1_witness :
    0 < 48000 ∧ 48000 ≠ 16000
    ∧ (∀ b ∈ [[(1 : ℚ)], [2, 3]], b ≠ [])
    ∧ lrProcessAll (newLinearResampler 48000 16000) [[(1 : ℚ)], [2, 3]]
        = idealResample ((48000 : ℚ) / 16000) ([[(1 : ℚ)], [2, 3]].join) :=
  ⟨by decide, by decide, by decide,
   claim_C1 48000 (by decide) (by decide) [[(1 : ℚ)], [2, 3]] (by decide)⟩

/-! ### C2 -/

theorem u32leChunks_replicate (n : ℕ) :
    u32leChunks (List.replicate (4 * n) 0) = List.replicate n 0 := by
  induction n with
  | zero => rfl
  | succ m ih =>
      rw [show 4 * (m + 1) = 4 * m + 1 + 1 + 1 + 1 from by ring]
      simp only [List.replicate_succ, u32leChunks, ih]

theorem f32FromBits_zero : f32FromBits 0 = 0 := by
  norm_num [f32FromBits]

theorem decode_zero_960 :
    decodeSamples (List.replicate 960 0) "f32le" = .ok (List.replicate 240 (0 : ℚ)) := by
  unfold decodeSamples
  rw [if_pos rfl]
  rw [if_neg (by rw [List.length_replicate]; norm_num)]
  rw [show (960 : ℕ) = 4 * 240 from rfl, u32leChunks_replicate, List.map_replicate,
      f32FromBits_zero]

theorem getD_replicate_zero (n i : ℕ) : (List.replicate n (0 : ℚ)).getD i 0 = 0 := by
  induction n generalizing i with
  | zero => simp [List.getD]
  | succ m ih =>
      cases i with
      | zero => rfl
      | succ i' =>
          simp only [List.replicate_succ, List.getD_cons_succ]
          exact ih i'

theorem interpAt_replicate_zero (n : ℕ) (p : ℚ) :
    interpAt (List.replicate n (0 : ℚ)) p = 0 := by
  unfold interpAt
  rw [getD_replicate_zero, getD_replicate_zero]
  ring

theorem float32ToS16_zero : float32ToS16 0 = 0 := by
  norm_num [float32ToS16, goRound]

theorem float32ToS16Bytes_replicate (n : ℕ) :
    float32ToS16Bytes (List.replicate n (0 : ℚ)) = List.replicate (2 * n) 0 := by
  induction n with
  | zero => rfl
  | succ m ih =>
      rw [show 2 * (m + 1) = 2 * m + 1 + 1 from by ring]
      simp only [List.replicate_succ, float32ToS16Bytes, ih, float32ToS16_zero]
      norm_num [u16OfInt]

theorem lrProcess_zero_240 :
    lrProcess (newLinearResampler 48000 16000) (List.replicate 240 (0 : ℚ))
      = (invState 48000 16000 (List.replicate 240 (0 : ℚ)) 240,
         List.replicate 80 (0 : ℚ)) := by
  have hne : (List.replicate 240 (0 : ℚ)) ≠ [] := by simp
  have h := lrProcess_first 48000 16000 (by norm_num) (by norm_num)
    (List.replicate 240 (0 : ℚ)) (List.replicate 240 (0 : ℚ)) hne
    (List.take_length _).symm (le_refl _)
  rw [h]
  refine congrArg₂ Prod.mk ?_ ?_
  · rw [List.length_replicate]
  · have hz : ∀ k ∈ List.range (idealCount (((48000 : ℕ) : ℚ) / ((16000 : ℕ) : ℚ))
        (List.replicate 240 (0 : ℚ)).length),
        interpAt (List.replicate 240 (0 : ℚ))
            ((k : ℚ) * (((48000 : ℕ) : ℚ) / ((16000 : ℕ) : ℚ)))
          = (fun _ : ℕ => (0 : ℚ)) k := by
      intro k _
      exact interpAt_replicate_zero 240 _
    rw [List.map_congr_left hz]
    have hck : idealCount (((48000 : ℕ) : ℚ) / ((16000 : ℕ) : ℚ))
        (List.replicate 240 (0 : ℚ)).length = 80 := by
      rw [List.length_replicate]
      unfold idealCount
      rw [show (((240 : ℕ) : ℚ) - 1) / (((48000 : ℕ) : ℚ) / ((16000 : ℕ) : ℚ))
            = 239 / 3 from by norm_num]
      rw [show ⌈(239 : ℚ) / 3⌉ = (80 : ℤ) from by
        rw [Int.ceil_eq_iff] <;> norm_num]
      rfl
    rw [hck]
    simp [List.eq_replicate_iff]

theorem pcm_zero_960 :
    pcmProcess ⟨48000, "f32le", some (newLinearResampler 48000 16000)⟩
        (List.replicate 960 0)
      = .ok (⟨48000, "f32le",
              some (invState 48000 16000 (List.replicate 240 (0 : ℚ)) 240)⟩,
             List.replicate 160 0) := by
  unfold pcmProcess
  rw [show (⟨48000, "f32le", some (newLinearResampler 48000 16000)⟩
      : PCMProcessor).encoding = "f32le" from rfl]
  rw [decode_zero_960]
  dsimp only
  rw [if_neg (by simp)]
  rw [lrProcess_zero_240]
  dsimp only
  rw [if_neg (by simp)]
  rw [float32ToS16Bytes_replicate]

/-- C2 counterexample: 960 bytes of float32 silence at 48 kHz resample
to 160 bytes of int16 zeros, not 320 — 240 input samples shrink to 80
output samples of two bytes each. -/
theorem claim_C2_counterexample :
    (pcmProcess ⟨48000, "f32le", some (newLinearResampler 48000 16000)⟩
        (List.replicate 960 0)).map (fun r => r.2.length)
      = .ok 160
    ∧ (160 : ℕ) ≠ 320 := by
  constructor
  · rw [pcm_zero_960]
    simp [Except.map]
  · decide

/-- C2 amended: for a start frame declaring 48000/f32le, one 960-byte
binary frame of float32 silence is resampled to 160 bytes of int16
zeros and pushed upstream as exactly one AudioOnlyClient frame with
event 200 (UserQuery) and the session id attached. -/
theorem claim_C2_amended (sid : String) :
    readStart (Except.ok (WsKind.textMsg, some ⟨"start", 48000, "f32le"⟩))
      = .ok ⟨"start", 48000, "f32le"⟩
    ∧ newPCMProcessor 48000 "f32le"
        = .ok ⟨48000, "f32le", some (newLinearResampler 48000 16000)⟩
    ∧ (pushAudio ⟨48000, "f32le", some (newLinearResampler 48000 16000)⟩ false none sid
        (List.replicate 960 0)).2
        = .sentUpstream ⟨.audioOnlyClient, 200, sid, List.replicate 160 0⟩ := by
  refine ⟨by decide, by rfl, ?_⟩
  unfold pushAudio
  rw [if_neg (by simp)]
  rw [if_neg (by simp)]
  rw [pcm_zero_960]
  dsimp only
  rw [if_neg (by simp)]
  rfl

end MeowAI
